import Mathlib

/-!
Shallow embedding of the audio streaming pipeline of the
DJAI-MIDI-Controller repository: the base64 byte decoder and the PCM
buffer builder (src/utils/AudioAnalyser.ts), the playback scheduler and
the audio-chunk message handler (src/index.tsx, connectToSession), the
stop operation, and the stored-prompt merge (src/index.tsx,
getInitialPrompts).  Times and float samples are modelled as rationals,
byte sequences as lists of naturals below 256.
-/

namespace DJAI

/-! ## Base64: model of the platform atob / btoa used by decode / encode -/

/-- Base64 alphabet character for a sextet value (0..63). -/
def b64Char (n : Nat) : Char :=
  if n < 26 then Char.ofNat (65 + n)
  else if n < 52 then Char.ofNat (97 + (n - 26))
  else if n < 62 then Char.ofNat (48 + (n - 52))
  else if n = 62 then '+'
  else '/'

/-- Sextet value of a base64 alphabet character, `none` for a character
outside the alphabet. -/
def sextOfChar (c : Char) : Option Nat :=
  if 65 ≤ c.toNat ∧ c.toNat ≤ 90 then some (c.toNat - 65)
  else if 97 ≤ c.toNat ∧ c.toNat ≤ 122 then some (c.toNat - 97 + 26)
  else if 48 ≤ c.toNat ∧ c.toNat ≤ 57 then some (c.toNat - 48 + 52)
  else if c = '+' then some 62
  else if c = '/' then some 63
  else none

/-- Split bytes into 6-bit groups (the encoding direction of base64).
A trailing group of 1 or 2 bytes yields 2 or 3 sextets, with the unused
low bits of the last sextet set to zero. -/
def toSextets : List Nat → List Nat
  | [] => []
  | [a] => [a / 4, a % 4 * 16]
  | [a, b] => [a / 4, a % 4 * 16 + b / 16, b % 16 * 4]
  | a :: b :: c :: rest =>
      a / 4 :: (a % 4 * 16 + b / 16) :: (b % 16 * 4 + c / 64) :: c % 64 ::
        toSextets rest

/-- Reassemble bytes from 6-bit groups (the decoding direction).  A
trailing group of 2 or 3 sextets yields 1 or 2 bytes and the leftover low
bits are discarded, as in WHATWG forgiving-base64 decoding. -/
def fromSextets : List Nat → List Nat
  | a :: b :: c :: d :: rest =>
      (a * 4 + b / 16) :: (b % 16 * 16 + c / 4) :: (c % 4 * 64 + d) ::
        fromSextets rest
  | [a, b] => [a * 4 + b / 16]
  | [a, b, c] => [a * 4 + b / 16, b % 16 * 16 + c / 4]
  | _ => []

/-- ASCII whitespace, removed by the platform atob before decoding. -/
def isB64Ws (c : Char) : Bool :=
  c.toNat == 9 || c.toNat == 10 || c.toNat == 12 || c.toNat == 13 || c.toNat == 32

/-- Strip up to two trailing padding characters from the REVERSED char
list of a base64 payload: forgiving-base64 removes one or two trailing
`=` when the length is a multiple of four. -/
def stripPadRev : List Char → List Char
  | a :: b :: rest =>
      if a = '=' then (if b = '=' then rest else b :: rest) else a :: b :: rest
  | [a] => if a = '=' then [] else [a]
  | [] => []

/-- Padding removal step of forgiving-base64: only applies when the
whitespace-free length is a multiple of four. -/
def stripPad (l : List Char) : List Char :=
  if l.length % 4 = 0 then (stripPadRev l.reverse).reverse else l

/-- Sequence a list of optional sextets, failing when any is `none`. -/
def seqOpt : List (Option Nat) → Option (List Nat)
  | [] => some []
  | none :: _ => none
  | some a :: rest => (seqOpt rest).map (a :: ·)

/-- Model of the platform atob (WHATWG forgiving-base64 decode): remove
ASCII whitespace, strip trailing padding, fail when the remaining length
is 1 modulo 4 or some character is outside the alphabet, then reassemble
bytes.  Throwing is modelled by `none`. -/
def atob (s : String) : Option (List Nat) :=
  if (stripPad (s.data.filter (fun c => !isB64Ws c))).length % 4 = 1 then none
  else
    match seqOpt ((stripPad (s.data.filter (fun c => !isB64Ws c))).map
        sextOfChar) with
    | none => none
    | some sexts => some (fromSextets sexts)

/-- Model of the platform btoa applied to a binary string of byte values:
encode the bytes into the base64 alphabet and pad with `=` to a length
that is a multiple of four. -/
def btoa (bytes : List Nat) : String :=
  ⟨(toSextets bytes).map b64Char ++
    List.replicate ((4 - (toSextets bytes).length % 4) % 4) '='⟩

/-- Embeds `encode` of src/utils/AudioAnalyser.ts (lines 52-59): it builds
a binary string whose char codes are exactly the byte values and applies
btoa to it, so it is btoa on the byte list. -/
def encode (bytes : List Nat) : String := btoa bytes

/-- Embeds `decode` of src/utils/AudioAnalyser.ts (lines 31-48).  The
argument models the JS value passed in: `none` stands for null, undefined
or a non-string value, all rejected by the typeof guard.  The empty
string is falsy and rejected by the same guard.  When atob throws, the
catch branch returns an empty array. -/
def decode : Option String → List Nat
  | none => []
  | some s =>
      if s = "" then []
      else
        match atob s with
        | none => []
        | some bytes => bytes

/-! ## PCM buffer builder: decodeAudioData of src/utils/AudioAnalyser.ts -/

/-- Signed 16-bit value of a little-endian byte pair, as stored by the
platform Int16Array view. -/
def int16OfBytes (lo hi : Nat) : Int :=
  let u := lo + 256 * hi
  if u < 32768 then (u : Int) else (u : Int) - 65536

/-- The 16-bit sample sequence read through an Int16Array view over a
byte sequence: consecutive little-endian pairs, a trailing odd byte
ignored (the view length passed by the source is the floored half
length). -/
def toInt16 : List Nat → List Int
  | lo :: hi :: rest => int16OfBytes lo hi :: toInt16 rest
  | _ => []

/-- Model of a Web Audio AudioBuffer: channel count, frame count, sample
rate and the per-channel float sample data. -/
structure AudioBuffer where
  numChannels : Nat
  frames : Nat
  sampleRate : ℚ
  channels : List (List ℚ)
deriving DecidableEq, Repr

/-- Duration of an AudioBuffer in seconds: frame count over sample rate. -/
def AudioBuffer.duration (b : AudioBuffer) : ℚ := (b.frames : ℚ) / b.sampleRate

/-- Model of AudioContext.createBuffer: a zero-filled buffer; the
platform raises NotSupportedError when the channel count or the frame
count is zero. -/
def createBuffer (numChannels frames : Nat) (sampleRate : ℚ) :
    Except String AudioBuffer :=
  if numChannels = 0 ∨ frames = 0 then Except.error "NotSupportedError"
  else Except.ok ⟨numChannels, frames, sampleRate,
    List.replicate numChannels (List.replicate frames 0)⟩

/-- Model of the view construction `new Int16Array(data.buffer,
data.byteOffset, data.length / 2)` at src/utils/AudioAnalyser.ts line 95:
the length argument is truncated by ToIndex to the floored half length;
the platform raises RangeError when the view would extend past the byte
buffer. -/
def int16View (data : List Nat) (len : Nat) : Except String (List Int) :=
  if 2 * len ≤ data.length then Except.ok ((toInt16 data).take len)
  else Except.error "RangeError"

/-- One output sample of the conversion loop at src/utils/AudioAnalyser.ts
lines 97-113: the interleaved sample at index `i * numChannels + channel`
divided by 32768, or silence when the index is past the end of the 16-bit
view. -/
def pcmSample (dataInt16 : List Int) (numChannels i channel : Nat) : ℚ :=
  let sampleIndex := i * numChannels + channel
  if h : sampleIndex < dataInt16.length then
    ((dataInt16.get ⟨sampleIndex, h⟩ : ℤ) : ℚ) / 32768
  else 0

/-- The channel data written by the nested conversion loops of
decodeAudioData: one list per channel, one converted sample per frame. -/
def decodedChannels (dataInt16 : List Int) (numChannels numFrames : Nat) :
    List (List ℚ) :=
  (List.range numChannels).map fun channel =>
    (List.range numFrames).map fun i => pcmSample dataInt16 numChannels i channel

/-- Embeds `decodeAudioData` of src/utils/AudioAnalyser.ts (lines 61-115):
empty data or a floored frame count of zero yield a minimal one-frame
silent buffer; otherwise a buffer of `numFrames = data.length / (2 *
numChannels)` frames is allocated and filled through the Int16Array view.
2 is bytesPerSample.  Platform exceptions propagate as `Except.error`. -/
def decodeAudioData (data : List Nat) (sampleRate : ℚ) (numChannels : Nat) :
    Except String AudioBuffer :=
  if data.length = 0 then createBuffer numChannels 1 sampleRate
  else if data.length / (2 * numChannels) = 0 then
    createBuffer numChannels 1 sampleRate
  else
    match createBuffer numChannels (data.length / (2 * numChannels)) sampleRate with
    | Except.error e => Except.error e
    | Except.ok buffer =>
        match int16View data (data.length / 2) with
        | Except.error e => Except.error e
        | Except.ok dataInt16 =>
            Except.ok { buffer with
              channels := decodedChannels dataInt16 numChannels
                (data.length / (2 * numChannels)) }

/-! ## Playback scheduler and audio-chunk handler of src/index.tsx -/

/-- Playback state of the player (src/types.ts). -/
inductive PlaybackState where
  | stopped
  | playing
  | loading
  | paused
deriving DecidableEq, Repr

/-- The mutable scheduler and session state of the PromptDjMidi element
(src/index.tsx lines 391-397): playback state, the nextStartTime cursor
in audio-clock seconds, the output gain value, and whether a session
handle is held. -/
structure PlayerState where
  playbackState : PlaybackState
  nextStartTime : ℚ
  gain : ℚ
  sessionPresent : Bool
deriving DecidableEq, Repr

/-- The lookahead constant `this.bufferTime = 1` (src/index.tsx line 397). -/
def bufferTime : ℚ := 1

/-- Embeds the scheduling core of the audio-chunk handler (src/index.tsx
lines 685-724): discard while paused or stopped; on the first chunk
(cursor 0) move the cursor to now plus bufferTime (the deferred
loading-to-playing timer does not change state within this call); on
underrun revert to loading and reset the cursor to now plus 0.1; start
the source at the cursor and advance it by the buffer duration.  Returns
the new state and the time passed to source.start, `none` when nothing
was scheduled.  `now` is audioContext.currentTime, `dur` the buffer
duration. -/
def scheduleBuffer (st : PlayerState) (now dur : ℚ) : PlayerState × Option ℚ :=
  if st.playbackState = PlaybackState.paused ∨
      st.playbackState = PlaybackState.stopped then (st, none)
  else
    let t1 := if st.nextStartTime = 0 then now + bufferTime else st.nextStartTime
    if t1 < now then
      ({ st with playbackState := PlaybackState.loading,
                 nextStartTime := now + 1/10 + dur }, some (now + 1/10))
    else
      ({ st with nextStartTime := t1 + dur }, some t1)

/-- Embeds the audio-chunk branch of the onmessage handler (src/index.tsx
lines 674-730) for one incoming chunk: the payload must be a string
(`none` models a non-string data field) and non-empty; while paused or
stopped the chunk is discarded before any other work; empty decoded
bytes, a decode failure caught by the catch block, and a minimal decoded
buffer are all skipped without scheduling; otherwise the buffer is
scheduled. -/
def onAudioChunk (st : PlayerState) (now : ℚ) (chunkData : Option String)
    (sampleRate : ℚ) (numChannels : Nat) : PlayerState × Option ℚ :=
  match chunkData with
  | none => (st, none)
  | some dstr =>
      if dstr = "" then (st, none)
      else if st.playbackState = PlaybackState.paused ∨
          st.playbackState = PlaybackState.stopped then (st, none)
      else
        let decodedBytes := decode (some dstr)
        if decodedBytes.length = 0 then (st, none)
        else
          match decodeAudioData decodedBytes sampleRate numChannels with
          | Except.error _ => (st, none)
          | Except.ok audioBuffer =>
              if audioBuffer.frames ≤ 1 ∧
                  audioBuffer.duration ≤ 1 / sampleRate + 1 / 10000 then
                (st, none)
              else scheduleBuffer st now audioBuffer.duration

/-- Run the scheduling core over a sequence of chunk arrivals, each given
as a pair of the audio-clock time at arrival and the buffer duration;
collects the start times of the scheduled sources. -/
def runChunks : PlayerState → List (ℚ × ℚ) → PlayerState × List ℚ
  | st, [] => (st, [])
  | st, (now, dur) :: rest =>
      match scheduleBuffer st now dur with
      | (st1, some t) =>
          let p := runChunks st1 rest
          (p.1, t :: p.2)
      | (st1, none) => runChunks st1 rest

/-- Embeds `resetAudioPipelineToStopped` (src/index.tsx lines 793-805):
the output gain is ramped to zero (modelled by its final value) and the
nextStartTime cursor is reset to zero. -/
def resetAudioPipelineToStopped (st : PlayerState) : PlayerState :=
  { st with gain := 0, nextStartTime := 0 }

/-- Embeds `stop` (src/index.tsx lines 976-991): session.stop() is
requested on the handle when present (an external call that does not
change this state, and the catch branch does not clear the handle), the
playback state is set to stopped, and the pipeline is reset.  The
session field itself is not written by stop. -/
def stop (st : PlayerState) : PlayerState :=
  resetAudioPipelineToStopped { st with playbackState := PlaybackState.stopped }

/-! ## Stored-prompt merge of src/index.tsx getInitialPrompts -/

/-- A prompt record (src/types.ts). -/
structure Prompt where
  promptId : String
  text : String
  weight : ℚ
  cc : Nat
  color : String
  categoryKey : Option String
  sourceType : String
deriving DecidableEq, Repr

/-- A prompt record parsed from local storage: any field may be missing
(undefined).  For categoryKey the outer `none` is undefined and
`some none` is a stored null, which the source treats as defined. -/
structure StoredPrompt where
  promptId : String
  text : Option String
  weight : Option ℚ
  cc : Option Nat
  color : Option String
  categoryKey : Option (Option String)
  sourceType : Option String
deriving DecidableEq, Repr

/-- The id of the internal BPM prompt (src/index.tsx line 83). -/
def BPM_PROMPT_ID : String := "internal-bpm-prompt"

/-- Embeds the per-prompt merge of getInitialPrompts (src/index.tsx lines
1565-1575): spread the default, then take text, weight, cc and
categoryKey from the stored record when defined, take sourceType from
the stored record when truthy (the source uses `||`, so an empty string
falls back to the default), and always take the color of the default. -/
def mergePrompt (defaultPrompt : Prompt) (storedPrompt : StoredPrompt) : Prompt :=
  { promptId := defaultPrompt.promptId
    text := storedPrompt.text.getD defaultPrompt.text
    weight := storedPrompt.weight.getD defaultPrompt.weight
    cc := storedPrompt.cc.getD defaultPrompt.cc
    color := defaultPrompt.color
    categoryKey :=
      match storedPrompt.categoryKey with
      | some v => v
      | none => defaultPrompt.categoryKey
    sourceType :=
      match storedPrompt.sourceType with
      | some s => if s = "" then defaultPrompt.sourceType else s
      | none => defaultPrompt.sourceType }

/-- The stored record found for an id: the stored array is poured into a
Map keyed by promptId, so among duplicates the last entry wins. -/
def lookupStored (stored : List StoredPrompt) (id : String) : Option StoredPrompt :=
  (stored.filter (fun p => p.promptId = id)).getLast?

/-- Embeds `getInitialPrompts` (src/index.tsx lines 1545-1590) at the
list level: `none` models a missing, unparseable or non-array stored
value, in which case the built defaults are returned; otherwise the
stored records (with the internal BPM id removed) are merged over the
defaults id by id. -/
def getInitialPrompts (storedPrompts : Option (List StoredPrompt))
    (defaults : List Prompt) : List Prompt :=
  match storedPrompts with
  | none => defaults
  | some arr =>
      let arr1 := arr.filter (fun p => p.promptId ≠ BPM_PROMPT_ID)
      defaults.map fun d =>
        match lookupStored arr1 d.promptId with
        | some s => mergePrompt d s
        | none => d

/-! ## Helper lemmas -/

/-- Indexing a map over a range below the bound gives the function value. -/
theorem getD_map_range {α : Type} (f : Nat → α) (n i : Nat) (h : i < n) (d : α) :
    ((List.range n).map f).getD i d = f i := by
  rw [List.getD_eq_get?, List.get?_map, List.get?_range h]
  rfl

/-- The interleaved sample index of frame `i` and channel `ch` is below
`F * C` whenever `i < F` and `ch < C`. -/
theorem interleaved_index_lt (i ch C F : Nat) (hi : i < F) (hch : ch < C) :
    i * C + ch < F * C :=
  calc i * C + ch < i * C + C := by omega
    _ = (i + 1) * C := by ring
    _ ≤ F * C := Nat.mul_le_mul_right C hi

/-- The Int16Array view has the floored half length of the byte buffer. -/
theorem toInt16_length : ∀ l : List Nat, (toInt16 l).length = l.length / 2
  | [] => rfl
  | [_] => by simp [toInt16]
  | _ :: _ :: rest => by
      have ih := toInt16_length rest
      simp only [toInt16, List.length_cons]
      omega

/-- Taking an even byte prefix commutes with the 16-bit reinterpretation. -/
theorem toInt16_take : ∀ (l : List Nat) (m : Nat),
    toInt16 (l.take (2 * m)) = (toInt16 l).take m
  | _, 0 => by simp [toInt16]
  | [], _ + 1 => by simp [toInt16]
  | [a], m + 1 => by
      have h1 : List.take (2 * (m + 1)) [a] = [a] := List.take_of_length_le (by simp; omega)
      rw [h1]
      show ([] : List Int) = List.take (m + 1) []
      simp
  | a :: b :: rest, m + 1 => by
      have ih := toInt16_take rest m
      have h2 : 2 * (m + 1) = 2 * m + 1 + 1 := by ring
      rw [h2, List.take_succ_cons, List.take_succ_cons]
      show int16OfBytes a b :: toInt16 (rest.take (2 * m)) =
        (int16OfBytes a b :: toInt16 rest).take (m + 1)
      rw [List.take_succ_cons, ih]

/-- Every 16-bit sample read from bytes below 256 lies in the signed
16-bit range. -/
theorem toInt16_bounds : ∀ l : List Nat, (∀ x ∈ l, x < 256) →
    ∀ v ∈ toInt16 l, -32768 ≤ v ∧ v < 32768
  | [], _, v, hv => by simp [toInt16] at hv
  | [_], _, v, hv => by simp [toInt16] at hv
  | a :: b :: rest, h, v, hv => by
      rw [show toInt16 (a :: b :: rest) = int16OfBytes a b :: toInt16 rest from rfl,
        List.mem_cons] at hv
      rcases hv with rfl | hv
      · have ha := h a (by simp)
        have hb := h b (by simp)
        simp only [int16OfBytes]
        split_ifs <;> omega
      · exact toInt16_bounds rest (fun x hx => h x (by simp [hx])) v hv

/-- The view taken by decodeAudioData covers the whole 16-bit content. -/
theorem int16View_full (data : List Nat) :
    int16View data (data.length / 2) = Except.ok (toInt16 data) := by
  unfold int16View
  rw [if_pos (by omega : 2 * (data.length / 2) ≤ data.length),
    ← toInt16_length, List.take_length]

/-- Unfolding of decodeAudioData on its main path: a nonzero floored
frame count fills a buffer of that many frames from the 16-bit view. -/
theorem decodeAudioData_main (data : List Nat) (sr : ℚ) (C : Nat)
    (hC : C ≠ 0) (hF : data.length / (2 * C) ≠ 0) :
    decodeAudioData data sr C = Except.ok ⟨C, data.length / (2 * C), sr,
      decodedChannels (toInt16 data) C (data.length / (2 * C))⟩ := by
  have hL : data.length ≠ 0 := by
    intro h
    rw [h] at hF
    simp at hF
  unfold decodeAudioData
  rw [if_neg hL, if_neg hF]
  unfold createBuffer
  rw [if_neg (by simp [hC, hF]), int16View_full]

/-- Unfolding of decodeAudioData on its degenerate path: empty data or a
floored frame count of zero yield the one-frame silent buffer. -/
theorem decodeAudioData_degenerate (data : List Nat) (sr : ℚ) (C : Nat)
    (hC : C ≠ 0) (hF : data.length / (2 * C) = 0) :
    decodeAudioData data sr C =
      Except.ok ⟨C, 1, sr, List.replicate C (List.replicate 1 0)⟩ := by
  unfold decodeAudioData
  by_cases hL : data.length = 0
  · rw [if_pos hL]
    unfold createBuffer
    rw [if_neg (by simp [hC])]
  · rw [if_neg hL, if_pos hF]
    unfold createBuffer
    rw [if_neg (by simp [hC])]

/-- Conversion only reads the interleaved samples below `C * F`, so a
16-bit view truncated there produces the same channel data. -/
theorem decodedChannels_take (A : List Int) (C F : Nat) (h : C * F ≤ A.length) :
    decodedChannels (A.take (C * F)) C F = decodedChannels A C F := by
  unfold decodedChannels
  refine List.map_congr_left fun ch hch => ?_
  refine List.map_congr_left fun i hi => ?_
  rw [List.mem_range] at hch hi
  unfold pcmSample
  have hidx : i * C + ch < C * F :=
    calc i * C + ch < F * C := interleaved_index_lt i ch C F hi hch
      _ = C * F := Nat.mul_comm F C
  have hlen : (A.take (C * F)).length = C * F := by
    rw [List.length_take, Nat.min_eq_left h]
  rw [dif_pos (show i * C + ch < (A.take (C * F)).length by rw [hlen]; exact hidx),
    dif_pos (lt_of_lt_of_le hidx h)]
  simp [List.get_eq_getElem, List.getElem_take]

/-- All sextets produced from bytes below 256 are below 64. -/
theorem toSextets_lt : ∀ l : List Nat, (∀ x ∈ l, x < 256) →
    ∀ s ∈ toSextets l, s < 64
  | [], _, s, hs => by simp [toSextets] at hs
  | [a], h, s, hs => by
      have ha := h a (by simp)
      simp only [toSextets, List.mem_cons, List.not_mem_nil, or_false] at hs
      rcases hs with rfl | rfl <;> omega
  | [a, b], h, s, hs => by
      have ha := h a (by simp)
      have hb := h b (by simp)
      simp only [toSextets, List.mem_cons, List.not_mem_nil, or_false] at hs
      rcases hs with rfl | rfl | rfl <;> omega
  | a :: b :: c :: rest, h, s, hs => by
      have ha := h a (by simp)
      have hb := h b (by simp)
      have hc := h c (by simp)
      rw [show toSextets (a :: b :: c :: rest) =
        a / 4 :: (a % 4 * 16 + b / 16) :: (b % 16 * 4 + c / 64) :: c % 64 ::
          toSextets rest from rfl] at hs
      simp only [List.mem_cons] at hs
      rcases hs with rfl | rfl | rfl | rfl | hs
      · omega
      · omega
      · omega
      · omega
      · exact toSextets_lt rest (fun x hx => h x (by simp [hx])) s hs

/-- Reassembling the sextets of a byte list gives back the bytes. -/
theorem fromSextets_toSextets : ∀ l : List Nat, (∀ x ∈ l, x < 256) →
    fromSextets (toSextets l) = l
  | [], _ => rfl
  | [a], h => by
      have ha := h a (by simp)
      show fromSextets [a / 4, a % 4 * 16] = [a]
      simp only [fromSextets, List.cons.injEq, and_true]
      omega
  | [a, b], h => by
      have ha := h a (by simp)
      have hb := h b (by simp)
      show fromSextets [a / 4, a % 4 * 16 + b / 16, b % 16 * 4] = [a, b]
      simp only [fromSextets, List.cons.injEq, and_true]
      omega
  | a :: b :: c :: rest, h => by
      have ih := fromSextets_toSextets rest (fun x hx => h x (by simp [hx]))
      have ha := h a (by simp)
      have hb := h b (by simp)
      have hc := h c (by simp)
      show fromSextets (a / 4 :: (a % 4 * 16 + b / 16) :: (b % 16 * 4 + c / 64) ::
        c % 64 :: toSextets rest) = a :: b :: c :: rest
      rw [show fromSextets (a / 4 :: (a % 4 * 16 + b / 16) ::
          (b % 16 * 4 + c / 64) :: c % 64 :: toSextets rest) =
        (a / 4 * 4 + (a % 4 * 16 + b / 16) / 16) ::
          ((a % 4 * 16 + b / 16) % 16 * 16 + (b % 16 * 4 + c / 64) / 4) ::
          ((b % 16 * 4 + c / 64) % 4 * 64 + c % 64) ::
          fromSextets (toSextets rest) from rfl, ih]
      simp only [List.cons.injEq]
      exact ⟨by omega, by omega, by omega, trivial⟩

/-- The sextet list of a nonempty byte list is nonempty. -/
theorem toSextets_ne_nil : ∀ (a : Nat) (l : List Nat), toSextets (a :: l) ≠ []
  | _, [] => by simp [toSextets]
  | _, [_] => by simp [toSextets]
  | _, _ :: _ :: _ => by simp [toSextets]

/-- Length of the sextet list: four per complete three-byte group, plus
two or three for a trailing group of one or two bytes. -/
theorem toSextets_length : ∀ l : List Nat, (toSextets l).length =
    4 * (l.length / 3) + (if l.length % 3 = 0 then 0 else l.length % 3 + 1)
  | [] => by simp [toSextets]
  | [_] => by simp [toSextets]
  | [_, _] => by simp [toSextets]
  | _ :: _ :: _ :: rest => by
      have ih := toSextets_length rest
      simp only [toSextets, List.length_cons]
      rw [ih]
      have h3 : (rest.length + 1 + 1 + 1) % 3 = rest.length % 3 := by omega
      rw [h3]
      by_cases hm : rest.length % 3 = 0 <;> simp only [hm, if_true, if_false] <;>
        omega

/-- Sequencing a list of present options succeeds with the values. -/
theorem seqOpt_map_some : ∀ l : List Nat, seqOpt (l.map some) = some l
  | [] => rfl
  | a :: rest => by
      show (seqOpt (rest.map some)).map (a :: ·) = some (a :: rest)
      rw [seqOpt_map_some rest]
      rfl

/-- The base64 alphabet inverts the sextet encoding. -/
theorem sextOfChar_b64Char : ∀ n, n < 64 → sextOfChar (b64Char n) = some n := by
  decide

/-- No base64 alphabet character is the padding character. -/
theorem b64Char_ne_pad : ∀ n, n < 64 → b64Char n ≠ '=' := by decide

/-- No base64 alphabet character is ASCII whitespace. -/
theorem b64Char_not_ws : ∀ n, n < 64 → isB64Ws (b64Char n) = false := by decide

/-- Stripping is the identity on a reversed payload with no padding. -/
theorem stripPadRev_no_pad (l : List Char) (h : ∀ c ∈ l, c ≠ '=') :
    stripPadRev l = l := by
  match l with
  | [] => rfl
  | [a] => simp [stripPadRev, h a (by simp)]
  | a :: b :: r => simp [stripPadRev, h a (by simp)]

/-- Stripping removes exactly the appended padding from an encoded
payload whose characters are all outside the padding character. -/
theorem stripPad_append_pad (A : List Char) (hA : ∀ c ∈ A, c ≠ '=') (p : Nat)
    (hp : p ≤ 2) (hlen : (A.length + p) % 4 = 0) :
    stripPad (A ++ List.replicate p '=') = A := by
  unfold stripPad
  rw [if_pos (by rw [List.length_append, List.length_replicate]; exact hlen),
    List.reverse_append, List.reverse_replicate]
  interval_cases p
  · rw [show List.replicate 0 '=' = [] from rfl, List.nil_append,
      stripPadRev_no_pad A.reverse (fun c hc => hA c (List.mem_reverse.mp hc)),
      List.reverse_reverse]
  · have hAne : A ≠ [] := by
      intro hnil
      rw [hnil] at hlen
      simp at hlen
    obtain ⟨b, r, hr⟩ : ∃ b r, A.reverse = b :: r := by
      rcases hrv : A.reverse with _ | ⟨b, r⟩
      · exact absurd (List.reverse_eq_nil_iff.mp hrv) hAne
      · exact ⟨b, r, rfl⟩
    have hb : b ≠ '=' := hA b (List.mem_reverse.mp (hr ▸ List.mem_cons_self b r))
    rw [show List.replicate 1 '=' = ['='] from rfl, hr]
    show (stripPadRev ('=' :: b :: r)).reverse = A
    rw [show stripPadRev ('=' :: b :: r) = b :: r by simp [stripPadRev, hb],
      ← hr, List.reverse_reverse]
  · rw [show List.replicate 2 '=' = ['=', '='] from rfl]
    show (stripPadRev ('=' :: '=' :: A.reverse)).reverse = A
    simp only [stripPadRev, if_pos rfl]
    exact List.reverse_reverse A

/-- A list of non-whitespace characters passes the whitespace filter
unchanged. -/
theorem filter_not_ws (l : List Char) (h : ∀ c ∈ l, isB64Ws c = false) :
    l.filter (fun c => !isB64Ws c) = l :=
  List.filter_eq_self.mpr fun c hc => by rw [h c hc]; rfl

/-! ## Theorems for the claims -/

/-- C7: chunks arriving while stopped or paused are discarded: if the
playback state is stopped or paused when an audio chunk message arrives,
the handler performs no scheduling side effect — the state (including
nextStartTime) is unchanged and no source start time is produced, so
nothing is buffered or scheduled. -/
theorem chunk_discarded_when_stopped_or_paused (st : PlayerState) (now : ℚ)
    (chunkData : Option String) (sampleRate : ℚ) (numChannels : Nat)
    (h : st.playbackState = PlaybackState.stopped ∨
      st.playbackState = PlaybackState.paused) :
    onAudioChunk st now chunkData sampleRate numChannels = (st, none) := by
  rcases chunkData with _ | dstr
  · rfl
  · unfold onAudioChunk
    rcases h with h | h <;> by_cases hd : dstr = "" <;> simp [hd, h]

theorem chunk_discarded_when_stopped_or_paused_witness :
    onAudioChunk ⟨PlaybackState.stopped, 0, 1, true⟩ 3 (some "TWFu") 48000 2 =
      (⟨PlaybackState.stopped, 0, 1, true⟩, none) :=
  chunk_discarded_when_stopped_or_paused ⟨PlaybackState.stopped, 0, 1, true⟩ 3
    (some "TWFu") 48000 2 (Or.inl rfl)

/-- C8 counterexample: invoking stop from a state holding a session does
not leave the connection absent — the stop method never writes the
session field, so the handle survives. -/
theorem stop_retains_session_counterexample :
    ¬ (stop ⟨PlaybackState.playing, 5, 1, true⟩).sessionPresent = false := by
  decide

/-- C8 (amended): invoking stop from any state leaves the playback state
stopped and the scheduler reset — nextStartTime set to 0 and the output
gain ramped to zero — while the session handle is left exactly as it was:
stop itself never discards it (only the onerror and onclose callbacks and
a failed connect do). -/
theorem stop_postcondition (st : PlayerState) :
    (stop st).playbackState = PlaybackState.stopped ∧
    (stop st).nextStartTime = 0 ∧
    (stop st).gain = 0 ∧
    (stop st).sessionPresent = st.sessionPresent :=
  ⟨rfl, rfl, rfl, rfl⟩

/-- C3: PCM builder frame count: for every byte sequence, sample rate and
channel count C of at least 1, decodeAudioData returns a buffer whose
per-channel frame count is the floored `length / (2 * C)` when that is
positive and a one-frame silent buffer otherwise, so the result always
has at least one frame. -/
theorem decodeAudioData_frame_count (data : List Nat) (sr : ℚ) (C : Nat)
    (hC : 1 ≤ C) :
    ∃ b, decodeAudioData data sr C = Except.ok b ∧
      b.numChannels = C ∧
      b.channels.length = C ∧
      b.frames = max 1 (data.length / (2 * C)) ∧
      1 ≤ b.frames ∧
      (∀ ch ∈ b.channels, ch.length = b.frames) ∧
      (data.length / (2 * C) = 0 →
        b.channels = List.replicate C (List.replicate 1 0)) := by
  have hC0 : C ≠ 0 := by omega
  by_cases hF : data.length / (2 * C) = 0
  · refine ⟨_, decodeAudioData_degenerate data sr C hC0 hF, rfl, ?_, ?_, ?_, ?_,
      fun _ => rfl⟩
    · simp
    · simp [hF]
    · exact le_refl 1
    · intro ch hch
      rw [List.eq_of_mem_replicate hch]
      simp
  · refine ⟨_, decodeAudioData_main data sr C hC0 hF, rfl, ?_, ?_, ?_, ?_,
      fun h => absurd h hF⟩
    · simp [decodedChannels]
    · rw [Nat.max_eq_right (Nat.one_le_iff_ne_zero.mpr hF)]
    · exact Nat.one_le_iff_ne_zero.mpr hF
    · intro ch hch
      simp only [decodedChannels, List.mem_map] at hch
      obtain ⟨k, _, rfl⟩ := hch
      simp

theorem decodeAudioData_frame_count_witness :
    ∃ b, decodeAudioData [1, 2, 3, 4, 5] 48000 2 = Except.ok b ∧
      b.numChannels = 2 ∧
      b.channels.length = 2 ∧
      b.frames = max 1 ([1, 2, 3, 4, 5].length / (2 * 2)) ∧
      1 ≤ b.frames ∧
      (∀ ch ∈ b.channels, ch.length = b.frames) ∧
      ([1, 2, 3, 4, 5].length / (2 * 2) = 0 →
        b.channels = List.replicate 2 (List.replicate 1 0)) :=
  decodeAudioData_frame_count [1, 2, 3, 4, 5] 48000 2 (by decide)

/-- C4: per-sample conversion: for every frame index below the frame
count and channel below C, the output sample is exactly the interleaved
signed 16-bit value divided by 32768 when that interleaved index is
within the 16-bit view, 0 when it is past the bounds, and it always lies
in the closed interval from -1 to 1. -/
theorem decodeAudioData_sample_conversion (data : List Nat) (sr : ℚ) (C : Nat)
    (hC : 1 ≤ C) (hbytes : ∀ x ∈ data, x < 256) (i ch : Nat)
    (hi : i < data.length / (2 * C)) (hch : ch < C) :
    ∃ b, decodeAudioData data sr C = Except.ok b ∧
      ((b.channels.getD ch []).getD i 0 =
        if h : i * C + ch < (toInt16 data).length then
          (((toInt16 data).get ⟨i * C + ch, h⟩ : ℤ) : ℚ) / 32768
        else 0) ∧
      -1 ≤ (b.channels.getD ch []).getD i 0 ∧
      (b.channels.getD ch []).getD i 0 ≤ 1 := by
  have hC0 : C ≠ 0 := by omega
  have hF : data.length / (2 * C) ≠ 0 := fun h => absurd (h ▸ hi) (Nat.not_lt_zero i)
  refine ⟨_, decodeAudioData_main data sr C hC0 hF, ?_⟩
  have hgetD :
      (((⟨C, data.length / (2 * C), sr,
          decodedChannels (toInt16 data) C (data.length / (2 * C))⟩ :
        AudioBuffer).channels.getD ch []).getD i 0) =
        pcmSample (toInt16 data) C i ch := by
    show (((decodedChannels (toInt16 data) C (data.length / (2 * C))).getD ch
      []).getD i 0) = pcmSample (toInt16 data) C i ch
    unfold decodedChannels
    rw [getD_map_range _ C ch hch, getD_map_range _ (data.length / (2 * C)) i hi]
  rw [hgetD]
  refine ⟨rfl, ?_⟩
  unfold pcmSample
  by_cases hidx : i * C + ch < (toInt16 data).length
  · rw [dif_pos hidx]
    have hv := toInt16_bounds data hbytes _ (List.get_mem (toInt16 data) _ hidx)
    constructor
    · rw [le_div_iff (by norm_num : (0 : ℚ) < 32768)]
      have : (-32768 : ℚ) ≤ ((toInt16 data).get ⟨i * C + ch, hidx⟩ : ℚ) := by
        exact_mod_cast hv.1
      linarith
    · rw [div_le_one (by norm_num : (0 : ℚ) < 32768)]
      have : (((toInt16 data).get ⟨i * C + ch, hidx⟩ : ℤ) : ℚ) ≤ 32767 := by
        exact_mod_cast Int.lt_add_one_iff.mp hv.2
      linarith
  · rw [dif_neg hidx]
    norm_num

theorem decodeAudioData_sample_conversion_witness :
    ∃ b, decodeAudioData [0, 128] 48000 1 = Except.ok b ∧
      (b.channels.getD 0 []).getD 0 0 = -1 ∧
      -1 ≤ (b.channels.getD 0 []).getD 0 0 ∧
      (b.channels.getD 0 []).getD 0 0 ≤ 1 := by
  obtain ⟨b, h1, h2, h3, h4⟩ := decodeAudioData_sample_conversion [0, 128] 48000 1
    (by decide) (by decide) 0 0 (by decide) (by decide)
  refine ⟨b, h1, ?_, h3, h4⟩
  rw [h2]
  norm_num [toInt16, int16OfBytes]

/-- C6: the PCM builder never raises: for every byte sequence (including
lengths that are not a multiple of 2 * C), every sample rate and every
channel count C of at least 1, decodeAudioData returns a well-formed
buffer (never an error), and the trailing partial-frame bytes are
dropped: the result only depends on the prefix of `2 * C * numFrames`
bytes. -/
theorem decodeAudioData_total_safe (data : List Nat) (sr : ℚ) (C : Nat)
    (hC : 1 ≤ C) :
    (∃ b, decodeAudioData data sr C = Except.ok b ∧
      b.numChannels = C ∧ 1 ≤ b.frames ∧ b.channels.length = C ∧
      ∀ ch ∈ b.channels, ch.length = b.frames) ∧
    decodeAudioData data sr C =
      decodeAudioData (data.take (2 * C * (data.length / (2 * C)))) sr C := by
  have hC0 : C ≠ 0 := by omega
  constructor
  · by_cases hF : data.length / (2 * C) = 0
    · refine ⟨_, decodeAudioData_degenerate data sr C hC0 hF, rfl, le_refl 1,
        by simp, ?_⟩
      intro ch hch
      rw [List.eq_of_mem_replicate hch]
      simp
    · refine ⟨_, decodeAudioData_main data sr C hC0 hF, rfl,
        Nat.one_le_iff_ne_zero.mpr hF, by simp [decodedChannels], ?_⟩
      intro ch hch
      simp only [decodedChannels, List.mem_map] at hch
      obtain ⟨k, _, rfl⟩ := hch
      simp
  · by_cases hF : data.length / (2 * C) = 0
    · rw [show 2 * C * (data.length / (2 * C)) = 0 by rw [hF, Nat.mul_zero],
        List.take_zero,
        decodeAudioData_degenerate data sr C hC0 hF,
        decodeAudioData_degenerate [] sr C hC0 (by simp)]
    · have hle : 2 * C * (data.length / (2 * C)) ≤ data.length :=
        calc 2 * C * (data.length / (2 * C))
            = (data.length / (2 * C)) * (2 * C) := Nat.mul_comm _ _
          _ ≤ data.length := Nat.div_mul_le_self data.length (2 * C)
      have hlen : (data.take (2 * C * (data.length / (2 * C)))).length =
          2 * C * (data.length / (2 * C)) := by
        rw [List.length_take, Nat.min_eq_left hle]
      have hF2 : (data.take (2 * C * (data.length / (2 * C)))).length / (2 * C) =
          data.length / (2 * C) := by
        rw [hlen]
        exact Nat.mul_div_cancel_left _ (by omega)
      have hCF : C * (data.length / (2 * C)) ≤ (toInt16 data).length := by
        rw [toInt16_length, Nat.le_div_iff_mul_le (by omega : 0 < 2)]
        calc C * (data.length / (2 * C)) * 2
            = 2 * C * (data.length / (2 * C)) := by ring
          _ ≤ data.length := hle
      rw [decodeAudioData_main data sr C hC0 hF,
        decodeAudioData_main _ sr C hC0 (by rw [hF2]; exact hF), hF2,
        show 2 * C * (data.length / (2 * C)) =
          2 * (C * (data.length / (2 * C))) by ring,
        toInt16_take data (C * (data.length / (2 * C))),
        decodedChannels_take (toInt16 data) C (data.length / (2 * C)) hCF]

theorem decodeAudioData_total_safe_witness :
    (∃ b, decodeAudioData [1, 2, 3] 48000 1 = Except.ok b ∧
      b.numChannels = 1 ∧ 1 ≤ b.frames ∧ b.channels.length = 1 ∧
      ∀ ch ∈ b.channels, ch.length = b.frames) ∧
    decodeAudioData [1, 2, 3] 48000 1 =
      decodeAudioData ([1, 2, 3].take (2 * 1 * ([1, 2, 3].length / (2 * 1))))
        48000 1 :=
  decodeAudioData_total_safe [1, 2, 3] 48000 1 (by decide)

/-- C2: underrun recovery and never-schedule-in-the-past: reaching the
underrun check with a non-zero cursor strictly behind the clock sets the
playback state to loading, starts the source at now + 0.1 and leaves the
cursor at now + 0.1 plus the buffer duration; moreover every produced
source start time is at or after the clock, and the cursor never
decreases across a scheduling call. -/
theorem underrun_recovery (st : PlayerState) (now dur : ℚ)
    (hps : st.playbackState ≠ PlaybackState.paused ∧
      st.playbackState ≠ PlaybackState.stopped)
    (hnow : 0 ≤ now) (hdur : 0 ≤ dur) :
    (st.nextStartTime ≠ 0 → st.nextStartTime < now →
      (scheduleBuffer st now dur).1.playbackState = PlaybackState.loading ∧
      (scheduleBuffer st now dur).2 = some (now + 1/10) ∧
      (scheduleBuffer st now dur).1.nextStartTime = now + 1/10 + dur) ∧
    (∀ t, (scheduleBuffer st now dur).2 = some t → now ≤ t) ∧
    st.nextStartTime ≤ (scheduleBuffer st now dur).1.nextStartTime := by
  have hcond : ¬ (st.playbackState = PlaybackState.paused ∨
      st.playbackState = PlaybackState.stopped) := by
    rintro (h | h)
    · exact hps.1 h
    · exact hps.2 h
  simp only [scheduleBuffer, bufferTime, if_neg hcond]
  by_cases h0 : st.nextStartTime = 0
  · rw [if_pos h0]
    have hlt : ¬ (now + 1 < now) := by linarith
    rw [if_neg hlt]
    refine ⟨fun hne _ => absurd h0 hne, ?_, ?_⟩
    · intro t ht
      have : now + 1 = t := by simpa using ht
      linarith
    · simp only [h0]
      linarith
  · rw [if_neg h0]
    by_cases hu : st.nextStartTime < now
    · rw [if_pos hu]
      refine ⟨fun _ _ => ⟨rfl, rfl, rfl⟩, ?_, ?_⟩
      · intro t ht
        have : now + 1/10 = t := by simpa using ht
        linarith
      · simp only
        linarith
    · rw [if_neg hu]
      push_neg at hu
      refine ⟨fun _ h => absurd h (not_lt.mpr hu), ?_, ?_⟩
      · intro t ht
        have : st.nextStartTime = t := by simpa using ht
        linarith
      · simp only
        linarith

theorem underrun_recovery_witness :
    (scheduleBuffer ⟨PlaybackState.playing, 5, 1, true⟩ 10 2).1.playbackState =
      PlaybackState.loading ∧
    (scheduleBuffer ⟨PlaybackState.playing, 5, 1, true⟩ 10 2).2 = some (101/10) ∧
    (scheduleBuffer ⟨PlaybackState.playing, 5, 1, true⟩ 10 2).1.nextStartTime =
      121/10 := by
  have h := underrun_recovery ⟨PlaybackState.playing, 5, 1, true⟩ 10 2
    ⟨by decide, by decide⟩ (by norm_num) (by norm_num)
  have h1 := h.1 (by norm_num) (by norm_num)
  refine ⟨h1.1, ?_, ?_⟩
  · rw [h1.2.1]
    norm_num
  · rw [h1.2.2]
    norm_num

/-- C1: gapless scheduling: scheduling N buffers of durations d1..dN in
order through the chunk handler from a first-buffer cursor t0, with the
underrun branch never taken, starts the i-th buffer at
t0 + d1 + ... + d(i-1) (each start is the previous start plus the
previous duration), and after each call the cursor equals the last start
plus the last duration, so finally t0 plus the total duration. -/
theorem gapless_scheduling (ps : PlaybackState) (g : ℚ) (sess : Bool)
    (t0 : ℚ) (calls : List (ℚ × ℚ))
    (hps : ps ≠ PlaybackState.paused ∧ ps ≠ PlaybackState.stopped)
    (ht0 : 0 < t0)
    (hdur : ∀ c ∈ calls, 0 ≤ c.2)
    (hnou : ∀ i, i < calls.length →
      (calls.getD i (0, 0)).1 ≤ t0 + ((calls.take i).map Prod.snd).sum) :
    (runChunks ⟨ps, t0, g, sess⟩ calls).2 =
      (List.range calls.length).map
        (fun i => t0 + ((calls.take i).map Prod.snd).sum) ∧
    (runChunks ⟨ps, t0, g, sess⟩ calls).1.nextStartTime =
      t0 + (calls.map Prod.snd).sum := by
  induction calls generalizing t0 with
  | nil => simp [runChunks]
  | cons c rest ih =>
      obtain ⟨now, dur⟩ := c
      have hdur0 : (0 : ℚ) ≤ dur := hdur (now, dur) (List.mem_cons_self _ _)
      have hsch : scheduleBuffer ⟨ps, t0, g, sess⟩ now dur =
          (⟨ps, t0 + dur, g, sess⟩, some t0) := by
        have hcond : ¬ (ps = PlaybackState.paused ∨ ps = PlaybackState.stopped) := by
          rintro (h | h)
          · exact hps.1 h
          · exact hps.2 h
        have h0 : ¬ (t0 = 0) := by linarith
        have hn : now ≤ t0 := by simpa using hnou 0 (by simp)
        have hlt : ¬ (t0 < now) := not_lt.mpr hn
        simp [scheduleBuffer, hcond, h0, hlt]
      have ih' := ih (t0 + dur) (by linarith)
        (fun x hx => hdur x (List.mem_cons_of_mem _ hx))
        (fun i hi => by
          have h := hnou (i + 1) (by simpa using hi)
          rw [List.getD_cons_succ, List.take_succ_cons] at h
          simp only [List.map_cons, List.sum_cons] at h
          linarith)
      simp only [runChunks, hsch]
      constructor
      · rw [List.length_cons, List.range_succ_eq_map, List.map_cons, List.map_map]
        refine List.cons_eq_cons.mpr ⟨by simp, ?_⟩
        rw [ih'.1]
        refine List.map_congr_left fun i hi => ?_
        show (t0 + dur) + ((rest.take i).map Prod.snd).sum =
          t0 + ((((now, dur) :: rest).take (i + 1)).map Prod.snd).sum
        rw [List.take_succ_cons]
        simp only [List.map_cons, List.sum_cons]
        ring
      · rw [ih'.2]
        simp only [List.map_cons, List.sum_cons]
        ring

theorem gapless_scheduling_witness :
    (runChunks ⟨PlaybackState.playing, 1, 1, true⟩ [(0, 2), (1, 3)]).2 =
      [1, 3] ∧
    (runChunks ⟨PlaybackState.playing, 1, 1, true⟩
      [(0, 2), (1, 3)]).1.nextStartTime = 6 := by
  have h := gapless_scheduling PlaybackState.playing 1 true 1 [(0, 2), (1, 3)]
    ⟨by decide, by decide⟩ (by norm_num)
    (by intro x hx; fin_cases hx <;> norm_num)
    (by
      intro i hi
      simp only [List.length_cons, List.length_nil] at hi
      interval_cases i <;>
        norm_num [List.getD_cons_zero, List.getD_cons_succ, List.take_succ_cons])
  refine ⟨?_, ?_⟩
  · rw [h.1]
    norm_num [List.range_succ, List.take_succ_cons]
  · rw [h.2]
    norm_num

/-- C5: Byte Decoder totality: a null, undefined or non-string input and
the empty string yield an empty byte sequence; a string on which atob
throws yields an empty byte sequence through the catch branch (decode is
a total function, so it never throws to its caller); a valid base64
string yields the decoded bytes. -/
theorem decode_never_throws :
    decode none = [] ∧
    decode (some "") = [] ∧
    (∀ s : String, atob s = none → decode (some s) = []) ∧
    (∀ (s : String) (bytes : List Nat), s ≠ "" → atob s = some bytes →
      decode (some s) = bytes) := by
  refine ⟨rfl, rfl, ?_, ?_⟩
  · intro s h
    by_cases hs : s = ""
    · simp [decode, hs]
    · show (if s = "" then [] else match atob s with
        | none => [] | some bytes => bytes) = []
      rw [if_neg hs, h]
  · intro s bytes hs h
    show (if s = "" then [] else match atob s with
      | none => [] | some bytes => bytes) = bytes
    rw [if_neg hs, h]

theorem decode_never_throws_witness :
    decode (some "!!!") = [] ∧ decode (some "TWFu") = [77, 97, 110] :=
  ⟨decode_never_throws.2.2.1 "!!!" rfl,
   decode_never_throws.2.2.2 "TWFu" [77, 97, 110] (by decide) rfl⟩

/-- C9 counterexample: a stored record that differs from the default only
in sourceType changes the merged prompt, so the merge does not take only
text, weight, cc and category from the stored record. -/
theorem getInitialPrompts_sourceType_counterexample :
    ((getInitialPrompts
        (some [⟨"prompt-0", none, none, none, none, none, some "button"⟩])
        [⟨"prompt-0", "dt", 1, 3, "blue", some "cat", "knob"⟩]).getD 0
        ⟨"", "", 0, 0, "", none, ""⟩).sourceType ≠ "knob" := by
  decide

/-- C9 (amended): for every prompt id present both in storage and in the
built defaults, the merged prompt takes text, weight, cc and category
from the stored record when defined and sourceType from the stored
record when truthy (a missing or empty stored sourceType falls back to
the default), while the color field is always taken from the default. -/
theorem stored_prompt_merge :
    (∀ (defaults : List Prompt) (arr : List StoredPrompt) (i : Nat)
      (hi : i < defaults.length) (s1 : StoredPrompt),
      lookupStored (arr.filter (fun p => p.promptId ≠ BPM_PROMPT_ID))
          (defaults.get ⟨i, hi⟩).promptId = some s1 →
      (getInitialPrompts (some arr) defaults)[i]? =
        some (mergePrompt (defaults.get ⟨i, hi⟩) s1)) ∧
    (∀ (d : Prompt) (s : StoredPrompt),
      (mergePrompt d s).promptId = d.promptId ∧
      (mergePrompt d s).color = d.color ∧
      (mergePrompt d s).text = s.text.getD d.text ∧
      (mergePrompt d s).weight = s.weight.getD d.weight ∧
      (mergePrompt d s).cc = s.cc.getD d.cc ∧
      (mergePrompt d s).categoryKey = s.categoryKey.getD d.categoryKey ∧
      (∀ v, s.sourceType = some v → v ≠ "" → (mergePrompt d s).sourceType = v) ∧
      ((s.sourceType = some "" ∨ s.sourceType = none) →
        (mergePrompt d s).sourceType = d.sourceType)) := by
  constructor
  · intro defaults arr i hi s1 hlook
    have hmap : (getInitialPrompts (some arr) defaults)[i]? = some (
        match lookupStored (arr.filter (fun p => p.promptId ≠ BPM_PROMPT_ID))
            (defaults.get ⟨i, hi⟩).promptId with
        | some s => mergePrompt (defaults.get ⟨i, hi⟩) s
        | none => defaults.get ⟨i, hi⟩) := by
      unfold getInitialPrompts
      rw [List.getElem?_map, List.getElem?_eq_getElem hi]
      rfl
    rw [hmap, hlook]
  · intro d s
    refine ⟨rfl, rfl, ?_, ?_, ?_, ?_, ?_, ?_⟩
    · cases h : s.text <;> simp [mergePrompt, h]
    · cases h : s.weight <;> simp [mergePrompt, h]
    · cases h : s.cc <;> simp [mergePrompt, h]
    · cases h : s.categoryKey <;> simp [mergePrompt, h]
    · intro v hv hne
      simp [mergePrompt, hv, hne]
    · rintro (h | h) <;> simp [mergePrompt, h]

theorem stored_prompt_merge_witness :
    (getInitialPrompts
        (some [⟨"prompt-0", some "txt", none, none, some "red", some none,
          some "button"⟩])
        [⟨"prompt-0", "dt", 1, 3, "blue", some "cat", "knob"⟩])[0]? =
      some (mergePrompt ⟨"prompt-0", "dt", 1, 3, "blue", some "cat", "knob"⟩
        ⟨"prompt-0", some "txt", none, none, some "red", some none,
          some "button"⟩) ∧
    (mergePrompt ⟨"prompt-0", "dt", 1, 3, "blue", some "cat", "knob"⟩
        ⟨"prompt-0", some "txt", none, none, some "red", some none,
          some "button"⟩).sourceType = "button" := by
  refine ⟨stored_prompt_merge.1 _ _ 0 (by decide) _ (by decide), ?_⟩
  exact (stored_prompt_merge.2 _ _).2.2.2.2.2.2.1 "button" rfl (by decide)

/-- C10: round trip: decoding the base64 string produced by the module
encode helper yields the original byte array, i.e. decode composed with
encode is the identity on byte arrays. -/
theorem decode_encode_roundtrip (bytes : List Nat) (h : ∀ b ∈ bytes, b < 256) :
    decode (some (encode bytes)) = bytes := by
  cases bytes with
  | nil => rfl
  | cons b0 brest =>
    have hlt : ∀ s ∈ toSextets (b0 :: brest), s < 64 := toSextets_lt _ h
    have hall_ws : ∀ c ∈ (toSextets (b0 :: brest)).map b64Char ++
        List.replicate ((4 - (toSextets (b0 :: brest)).length % 4) % 4) '=',
        isB64Ws c = false := by
      intro c hc
      rcases List.mem_append.mp hc with hc | hc
      · obtain ⟨s, hs, rfl⟩ := List.mem_map.mp hc
        exact b64Char_not_ws s (hlt s hs)
      · rw [List.eq_of_mem_replicate hc]
        decide
    have hne_pad : ∀ c ∈ (toSextets (b0 :: brest)).map b64Char, c ≠ '=' := by
      intro c hc
      obtain ⟨s, hs, rfl⟩ := List.mem_map.mp hc
      exact b64Char_ne_pad s (hlt s hs)
    have hlen4 : ¬ ((toSextets (b0 :: brest)).map b64Char).length % 4 = 1 := by
      rw [List.length_map, toSextets_length]
      by_cases hm : (b0 :: brest).length % 3 = 0 <;>
        simp only [hm, if_true, if_false] <;> omega
    have hp2 : (4 - (toSextets (b0 :: brest)).length % 4) % 4 ≤ 2 := by
      rw [toSextets_length]
      by_cases hm : (b0 :: brest).length % 3 = 0 <;>
        simp only [hm, if_true, if_false] <;> omega
    have hmod0 : (((toSextets (b0 :: brest)).map b64Char).length +
        (4 - (toSextets (b0 :: brest)).length % 4) % 4) % 4 = 0 := by
      rw [List.length_map]
      omega
    have hsne : String.mk ((toSextets (b0 :: brest)).map b64Char ++
        List.replicate ((4 - (toSextets (b0 :: brest)).length % 4) % 4) '=') ≠
        "" := by
      intro hcontra
      have hd : (toSextets (b0 :: brest)).map b64Char ++
          List.replicate ((4 - (toSextets (b0 :: brest)).length % 4) % 4) '=' =
          [] := by simpa using congrArg String.data hcontra
      exact toSextets_ne_nil b0 brest
        (List.map_eq_nil.mp (List.append_eq_nil.mp hd).1)
    have hstrip := stripPad_append_pad ((toSextets (b0 :: brest)).map b64Char)
      hne_pad _ hp2 hmod0
    have hatob : atob (String.mk ((toSextets (b0 :: brest)).map b64Char ++
        List.replicate ((4 - (toSextets (b0 :: brest)).length % 4) % 4) '=')) =
        some (fromSextets (toSextets (b0 :: brest))) := by
      unfold atob
      rw [show (String.mk ((toSextets (b0 :: brest)).map b64Char ++
          List.replicate ((4 - (toSextets (b0 :: brest)).length % 4) % 4)
            '=')).data =
        (toSextets (b0 :: brest)).map b64Char ++
          List.replicate ((4 - (toSextets (b0 :: brest)).length % 4) % 4) '='
        from rfl]
      rw [filter_not_ws _ hall_ws, hstrip, if_neg hlen4]
      have hmapmap : ((toSextets (b0 :: brest)).map b64Char).map sextOfChar =
          (toSextets (b0 :: brest)).map some := by
        rw [List.map_map]
        exact List.map_congr_left fun s hs => sextOfChar_b64Char s (hlt s hs)
      rw [hmapmap, seqOpt_map_some]
    show decode (some (String.mk ((toSextets (b0 :: brest)).map b64Char ++
      List.replicate ((4 - (toSextets (b0 :: brest)).length % 4) % 4) '='))) =
      b0 :: brest
    simp only [decode, if_neg hsne, hatob]
    exact fromSextets_toSextets _ h

theorem decode_encode_roundtrip_witness :
    decode (some (encode [0, 255, 16, 7])) = [0, 255, 16, 7] :=
  decode_encode_roundtrip [0, 255, 16, 7] (by decide)

end DJAI
